import Mathlib

/-!
FlashBeam engine — shallow embedding.

A shallow embedding of the FlashBeam search engine from
`src/python/flashBeam/flashbeam.py` (the reference implementation of the
engine described by the specification), together with proofs of the
specified properties.

Modelling conventions:
* Python `float` scores are modelled by `PyFloat`: finite doubles are
  rationals (float comparison is exact real comparison), plus `inf`,
  `ninf` and `nan`.  Comparison mirrors IEEE-754 / Python semantics:
  every comparison involving `nan` is `False`.
* `list.sort(key=lambda x: x.score)` (CPython Timsort, a stable
  comparison sort) is modelled by a stable insertion sort `pysort`.
  For score lists whose comparison is a total preorder (no `nan`) every
  stable comparison sort produces the same output, so `pysort` agrees
  with Timsort there; claims about `nan` behaviour are only evaluated on
  lists of length two, where insertion sort and Timsort perform the very
  same single comparison.
* `heapq.nsmallest(k, l, key)` is documented to be equivalent to
  `sorted(l, key=key)[:k]` (with stable tie-breaking by insertion
  index); it is modelled as `take k` of the stable sort.
* Python `set` objects (`visited`, `seen_uids`, `seen_persistent`) are
  only ever tested for membership, never iterated, so they are modelled
  as lists of keys with `∈`.
* The `print` calls and `time.monotonic()` are pure observation and are
  not modelled; `format_score` is kept in the problem record to state
  the determinism / non-interference property.
* The float literal `1e-10` is modelled by the rational `1/10^10`; no
  engine comparison distinguishes the two.
-/

/-- Python float values as far as the engine compares them: finite
doubles (exact rationals), the two infinities, and `nan`. -/
inductive PyFloat where
  | nan : PyFloat
  | ninf : PyFloat
  | finite (q : ℚ) : PyFloat
  | inf : PyFloat
deriving DecidableEq, Repr

namespace PyFloat

/-- Python `<` on floats: any comparison with `nan` is `False`. -/
def lt : PyFloat → PyFloat → Bool
  | nan, _ => false
  | _, nan => false
  | ninf, ninf => false
  | ninf, _ => true
  | _, ninf => false
  | finite a, finite b => decide (a < b)
  | finite _, inf => true
  | inf, _ => false

/-- Python `<=` on floats: any comparison with `nan` is `False`. -/
def le : PyFloat → PyFloat → Bool
  | nan, _ => false
  | _, nan => false
  | ninf, _ => true
  | _, ninf => false
  | finite a, finite b => decide (a ≤ b)
  | finite _, inf => true
  | inf, inf => true
  | inf, finite _ => false

/-- Python `>=` on floats. -/
def ge (a b : PyFloat) : Bool := le b a

end PyFloat

/-- The zero threshold `1e-10` used by the flash-pool refresh, i.e. the
rational `1 / 10 ^ 10` (given by its reduced numerator/denominator so
that comparisons against it evaluate by kernel reduction). -/
def flashZeroThreshold : PyFloat :=
  .finite (Rat.mk' 1 (10 ^ 10) (by norm_num) (by norm_num))

/-- A search node: opaque state, human-readable word, scalar score
(lower is better).  Mirrors the `Node` dataclass. -/
structure Node (S : Type) where
  state : S
  identifier : String
  score : PyFloat
deriving DecidableEq, Repr

/-- The `SearchProblem` contract: the pluggable operations the engine
consumes.  Each Python method becomes a (pure) Lean function field. -/
structure SearchProblem (S K : Type) where
  get_initial_node : Node S
  get_generators : List (Node S)
  combine : Node S → Node S → Node S
  get_hash_key : Node S → K
  is_solution : Node S → Bool
  is_nontrivial : Node S → Bool
  format_score : Node S → String

/-- Comparison used by every score sort in the engine:
`key=lambda x: x.score` with Python `<`. -/
def scoreLt {S : Type} (a b : Node S) : Bool := PyFloat.lt a.score b.score

/-- Stable insertion of `x` into `l`: `x` is placed before the first
element `y` with `¬ (y.score < x.score)`, so elements with equal (or
incomparable) scores keep their original relative order — the
characteristic behaviour of a stable sort. -/
def pyInsert {S : Type} (x : Node S) : List (Node S) → List (Node S)
  | [] => [x]
  | y :: ys => if scoreLt y x then y :: pyInsert x ys else x :: y :: ys

/-- Stable sort by score, modelling `list.sort(key=lambda x: x.score)`
and the sorted basis of `heapq.nsmallest`. -/
def pysort {S : Type} : List (Node S) → List (Node S)
  | [] => []
  | x :: xs => pyInsert x (pysort xs)

section Engine

variable {S K : Type} [DecidableEq K]

/-- Deduplication by hash key keeping first occurrences: the
`expansion_pool` construction loop (`seen_uids`). -/
def dedupGo (p : SearchProblem S K) : List (Node S) → List K → List (Node S)
  | [], _ => []
  | n :: rest, seen =>
    if p.get_hash_key n ∈ seen then dedupGo p rest seen
    else n :: dedupGo p rest (p.get_hash_key n :: seen)

/-- The `expansion_pool`: deduplicated `persistent_flash + generators`,
flash entries first. -/
def expansionPool (p : SearchProblem S K)
    (persistent_flash generators : List (Node S)) : List (Node S) :=
  dedupGo p (persistent_flash ++ generators) []

/-- Result of the expansion double loop: `done` models the
`return found_solutions` triggered by reaching `max_solutions`;
`went` carries the updated visited set, `next_candidates` and
`found_solutions`. -/
inductive ExpandResult (S K : Type) where
  | done (solutions : List (Node S)) : ExpandResult S K
  | went (visited : List K) (candidates solutions : List (Node S)) : ExpandResult S K
deriving DecidableEq, Repr

/-- The expansion double loop (`for b_node in current_beam: for f_node
in expansion_pool:`), flattened over the list of pairs in iteration
order.  For each pair: combine, skip if the child's key is visited,
otherwise record the key, append to solutions when both predicates
hold (returning early at `max_solutions`), and append the child to the
candidate list. -/
def expandPairs (p : SearchProblem S K) (max_solutions : ℕ) :
    List (Node S × Node S) → List K → List (Node S) → List (Node S) →
    ExpandResult S K
  | [], visited, cands, sols => .went visited cands sols
  | (b, f) :: rest, visited, cands, sols =>
    let child := p.combine b f
    let uid := p.get_hash_key child
    if uid ∈ visited then expandPairs p max_solutions rest visited cands sols
    else
      if p.is_solution child && p.is_nontrivial child then
        let sols' := sols ++ [child]
        if max_solutions ≤ sols'.length then .done sols'
        else expandPairs p max_solutions rest (uid :: visited)
          (cands ++ [child]) sols'
      else expandPairs p max_solutions rest (uid :: visited)
        (cands ++ [child]) sols

/-- Beam selection (step 3 of the loop): `heapq.nsmallest(beam_width, …)`
when the candidate list overflows the beam, otherwise an in-place
stable sort. -/
def selectBeam (beam_width : ℕ) (cands : List (Node S)) : List (Node S) :=
  if beam_width < cands.length then (pysort cands).take beam_width
  else pysort cands

/-- The flash-refresh loop body: walk the sorted history, skip nodes
with score `< 1e-10`, skip already-seen keys, append, and break as soon
as the pool has reached `flash_size`. -/
def flashLoop (p : SearchProblem S K) (flash_size : ℕ) :
    List (Node S) → List K → List (Node S) → List (Node S)
  | [], _, acc => acc
  | n :: rest, seen, acc =>
    if PyFloat.lt n.score flashZeroThreshold then flashLoop p flash_size rest seen acc
    else
      if p.get_hash_key n ∈ seen then flashLoop p flash_size rest seen acc
      else
        if flash_size ≤ (acc ++ [n]).length then acc ++ [n]
        else flashLoop p flash_size rest (p.get_hash_key n :: seen) (acc ++ [n])

/-- Flash-pool refresh (step 4 of the loop): sort
`persistent_flash + current_beam` by score, then run `flashLoop`. -/
def refreshFlash (p : SearchProblem S K) (flash_size : ℕ)
    (persistent_flash current_beam : List (Node S)) : List (Node S) :=
  flashLoop p flash_size (pysort (persistent_flash ++ current_beam)) [] []

/-- Engine configuration: the four `solve`-shaping parameters of the
`FlashBeam` constructor. -/
structure FlashBeamConfig where
  beam_width : ℕ
  flash_size : ℕ
  max_iterations : ℕ
  max_solutions : ℕ
deriving DecidableEq, Repr

/-- The mutable state of one `solve()` call between iterations. -/
structure EngineState (S K : Type) where
  current_beam : List (Node S)
  visited : List K
  persistent_flash : List (Node S)
  found_solutions : List (Node S)
deriving DecidableEq, Repr

/-- Result of one iteration of the main loop: either `solve` returns
(`max_solutions` reached or empty candidate list) or the loop goes on
with a new state. -/
inductive StepResult (S K : Type) where
  | finished (sols : List (Node S)) : StepResult S K
  | running (st : EngineState S K) : StepResult S K
deriving DecidableEq, Repr

/-- The pairs `(b_node, f_node)` visited by the expansion double loop,
in iteration order. -/
def beamPairs (current_beam pool : List (Node S)) : List (Node S × Node S) :=
  current_beam.flatMap (fun b => pool.map (fun f => (b, f)))

/-- One iteration of the main `for i in range(max_iterations)` loop:
build the expansion pool, expand, return on `max_solutions` or an empty
candidate list, otherwise select the next beam and refresh the flash
pool. -/
def solveStep (p : SearchProblem S K) (cfg : FlashBeamConfig)
    (generators : List (Node S)) (st : EngineState S K) : StepResult S K :=
  let pool := expansionPool p st.persistent_flash generators
  match expandPairs p cfg.max_solutions (beamPairs st.current_beam pool)
      st.visited [] st.found_solutions with
  | .done sols => .finished sols
  | .went visited' cands sols' =>
    if cands.isEmpty then .finished sols'
    else
      let beam' := selectBeam cfg.beam_width cands
      .running
        { current_beam := beam'
          visited := visited'
          persistent_flash := refreshFlash p cfg.flash_size st.persistent_flash beam'
          found_solutions := sols' }

/-- The main loop, fuelled by the remaining iteration budget; when the
budget runs out `solve` returns `found_solutions`. -/
def solveLoop (p : SearchProblem S K) (cfg : FlashBeamConfig)
    (generators : List (Node S)) : ℕ → EngineState S K → List (Node S)
  | 0, st => st.found_solutions
  | k + 1, st =>
    match solveStep p cfg generators st with
    | .finished sols => sols
    | .running st' => solveLoop p cfg generators k st'

/-- Initialization of `solve()`: beam = root + generators, visited
pre-seeded with the root's key and every generator's key, flash pool =
generators, no solutions. -/
def initState (p : SearchProblem S K) : EngineState S K :=
  { current_beam := p.get_initial_node :: p.get_generators
    visited :=
      p.get_hash_key p.get_initial_node :: p.get_generators.map p.get_hash_key
    persistent_flash := p.get_generators
    found_solutions := [] }

/-- The `FlashBeam.solve()` entry point. -/
def solve (p : SearchProblem S K) (cfg : FlashBeamConfig) : List (Node S) :=
  solveLoop p cfg p.get_generators cfg.max_iterations (initState p)

/-- The engine states after each completed iteration, in order (the
trace stops at whichever termination condition fires first). -/
def solveStates (p : SearchProblem S K) (cfg : FlashBeamConfig)
    (generators : List (Node S)) : ℕ → EngineState S K → List (EngineState S K)
  | 0, _ => []
  | k + 1, st =>
    match solveStep p cfg generators st with
    | .finished _ => []
    | .running st' => st' :: solveStates p cfg generators k st'

/-- The per-iteration state trace of one `solve()` call. -/
def solveTrace (p : SearchProblem S K) (cfg : FlashBeamConfig) :
    List (EngineState S K) :=
  solveStates p cfg p.get_generators cfg.max_iterations (initState p)

/-- The `found_solutions` component of an expansion result. -/
def ExpandResult.sols : ExpandResult S K → List (Node S)
  | .done s => s
  | .went _ _ s => s

/-- The `visited` component of an expansion result (for a `done` result
the Python function returns before the set is read again, so the
argument set stands in). -/
def ExpandResult.vis (v : List K) : ExpandResult S K → List K
  | .done _ => v
  | .went v' _ _ => v'

/-- The `found_solutions` visible in a step result. -/
def StepResult.sols : StepResult S K → List (Node S)
  | .finished s => s
  | .running st => st.found_solutions

/-- A node the engine may legitimately report: both the solution
predicate and the non-triviality filter hold. -/
def goodSol (p : SearchProblem S K) (n : Node S) : Prop :=
  p.is_solution n = true ∧ p.is_nontrivial n = true

/-- Invariant tying `found_solutions` to the visited set: every
reported solution's key has been recorded as visited, and no two
reported solutions share a key. -/
def solsKeysInv (p : SearchProblem S K) (visited : List K)
    (sols : List (Node S)) : Prop :=
  (∀ s ∈ sols, p.get_hash_key s ∈ visited) ∧
    sols.Pairwise (fun a b => p.get_hash_key a ≠ p.get_hash_key b)

/-- The canonical keys the visited set is pre-seeded with at
initialization: the root's key and every generator's key. -/
def seedKeys (p : SearchProblem S K) : List K :=
  p.get_hash_key p.get_initial_node :: p.get_generators.map p.get_hash_key

/-- Invariant for the seed-key exclusion property: the seeds stay in the
visited set and no reported solution carries a seed key. -/
def seedsInv (p : SearchProblem S K) (visited : List K)
    (sols : List (Node S)) : Prop :=
  (∀ kk ∈ seedKeys p, kk ∈ visited) ∧
    ∀ s ∈ sols, p.get_hash_key s ∉ seedKeys p

/-- Modelled from the spec's wording of the flash-pool refresh (§4.2
step 5 / C6): sort the merged history by score ascending, discard the
approximately-zero scores, keep the first occurrence of each canonical
key, truncate to `flash_size`.  Used as the refinement target for
`refreshFlash`. -/
def specFlashPipeline (p : SearchProblem S K) (flash_size : ℕ)
    (persistent_flash current_beam : List (Node S)) : List (Node S) :=
  let sorted := pysort (persistent_flash ++ current_beam)
  let nonzero := sorted.filter (fun n => !PyFloat.lt n.score flashZeroThreshold)
  (dedupGo p nonzero []).take flash_size

end Engine

/-! ## Concrete toy instances (used by witnesses and counterexamples) -/

/-- Toy root: state `0`, empty word, sentinel score `+∞`. -/
def toyRoot : Node ℤ := { state := 0, identifier := "", score := .inf }

/-- Toy generator: the move `+1`. -/
def toyGen : Node ℤ := { state := 1, identifier := "a", score := .finite 2 }

/-- Toy combination: add states, concatenate words, score the distance
to the target state `3`. -/
def toyCombine (a b : Node ℤ) : Node ℤ :=
  { state := a.state + b.state
    identifier := a.identifier ++ " . " ++ b.identifier
    score := .finite ((3 - (a.state + b.state)).natAbs : ℚ) }

/-- A concrete toy problem over `ℤ` under addition: target state `3`,
every solution counts as non-trivial. -/
def toyProblem : SearchProblem ℤ ℤ :=
  { get_initial_node := toyRoot
    get_generators := [toyGen]
    combine := toyCombine
    get_hash_key := fun n => n.state
    is_solution := fun n => decide (n.state = 3)
    is_nontrivial := fun _ => true
    format_score := fun _ => "s" }

/-- The toy configuration used by the witnesses. -/
def toyCfg : FlashBeamConfig :=
  { beam_width := 5, flash_size := 5, max_iterations := 5, max_solutions := 1 }

/-- The toy configuration with a zero-capacity flash pool. -/
def toyCfgZeroFlash : FlashBeamConfig :=
  { beam_width := 5, flash_size := 0, max_iterations := 5, max_solutions := 1 }

/-- The first solution the toy search finds: `a . a . a`, state `3`. -/
def toySol : Node ℤ := toyCombine (toyCombine toyGen toyGen) toyGen

/-- The toy problem with a different (cosmetic) score formatter — used
to exercise the determinism / non-interference property. -/
def toyProblemLog : SearchProblem ℤ ℤ :=
  { toyProblem with format_score := fun n => n.identifier }

/-- A contract-violating problem: `get_generators` returns the empty
list. -/
def emptyGenProblem : SearchProblem ℤ ℤ :=
  { toyProblem with get_generators := [] }

/-- A contract-violating problem: the single generator carries a `nan`
score. -/
def nanGenProblem : SearchProblem ℤ ℤ :=
  { toyProblem with
    get_generators := [{ state := 1, identifier := "a", score := .nan }] }

/-- A toy problem whose target state `2` is reached immediately but is
classified as trivial: `is_solution` accepts state `2`, while
`is_nontrivial` demands state at least `3`. -/
def toyTrivialProblem : SearchProblem ℤ ℤ :=
  { toyProblem with
    is_solution := fun n => decide (n.state = 2)
    is_nontrivial := fun n => decide (3 ≤ n.state) }

/-- The engine state after the first completed iteration of the toy
search. -/
def toyIterOneState : EngineState ℤ ℤ :=
  { current_beam := [toyCombine toyGen toyGen]
    visited := [2, 0, 1]
    persistent_flash := [toyCombine toyGen toyGen, toyGen]
    found_solutions := [] }

/-- A node carrying a `nan` score (degenerate state). -/
def nanNode : Node ℤ := { state := 5, identifier := "n", score := .nan }

/-- A node carrying an ordinary finite score. -/
def goodNode : Node ℤ := { state := 2, identifier := "g", score := .finite 1 }

/-- A node carrying a `+∞` score (degenerate state). -/
def infNode : Node ℤ := { state := 9, identifier := "i", score := .inf }

/-! ## Proofs -/

section Proofs

variable {S K : Type} [DecidableEq K]

theorem expandPairs_sols_good (p : SearchProblem S K) (ms : ℕ) :
    ∀ (pairs : List (Node S × Node S)) (visited : List K)
      (cands sols : List (Node S)),
      (∀ n ∈ sols, goodSol p n) →
      ∀ n ∈ (expandPairs p ms pairs visited cands sols).sols, goodSol p n := by
  intro pairs
  induction pairs with
  | nil =>
    intro visited cands sols h
    simpa [expandPairs, ExpandResult.sols] using h
  | cons pr rest ih =>
    obtain ⟨b, f⟩ := pr
    intro visited cands sols h
    simp only [expandPairs]
    split
    · exact ih _ _ _ h
    · split
      · next hsol =>
        have hgood : goodSol p (p.combine b f) := by
          have := Bool.and_eq_true_iff.mp hsol
          exact ⟨this.1, this.2⟩
        have hall : ∀ n ∈ sols ++ [p.combine b f], goodSol p n := by
          intro n hn
          rcases List.mem_append.1 hn with h1 | h2
          · exact h n h1
          · rcases List.mem_singleton.1 h2 with rfl
            exact hgood
        split
        · intro n hn
          exact hall n (by simpa [ExpandResult.sols] using hn)
        · exact ih _ _ _ hall
      · exact ih _ _ _ h

theorem solveStep_sols_good (p : SearchProblem S K) (cfg : FlashBeamConfig)
    (gens : List (Node S)) (st : EngineState S K)
    (h : ∀ n ∈ st.found_solutions, goodSol p n) :
    ∀ n ∈ (solveStep p cfg gens st).sols, goodSol p n := by
  simp only [solveStep]
  split
  · next sols hE =>
    have hand := expandPairs_sols_good p cfg.max_solutions
      (beamPairs st.current_beam (expansionPool p st.persistent_flash gens))
      st.visited [] st.found_solutions h
    rw [hE] at hand
    simpa [ExpandResult.sols, StepResult.sols] using hand
  · next v c sols hE =>
    have hand := expandPairs_sols_good p cfg.max_solutions
      (beamPairs st.current_beam (expansionPool p st.persistent_flash gens))
      st.visited [] st.found_solutions h
    rw [hE] at hand
    simp only [ExpandResult.sols] at hand
    split
    · simpa [StepResult.sols] using hand
    · simpa [StepResult.sols] using hand

theorem solveLoop_sols_good (p : SearchProblem S K) (cfg : FlashBeamConfig)
    (gens : List (Node S)) :
    ∀ (k : ℕ) (st : EngineState S K),
      (∀ n ∈ st.found_solutions, goodSol p n) →
      ∀ n ∈ solveLoop p cfg gens k st, goodSol p n := by
  intro k
  induction k with
  | zero =>
    intro st h
    simpa [solveLoop] using h
  | succ k ih =>
    intro st h
    simp only [solveLoop]
    split
    · next sols hstep =>
      have := solveStep_sols_good p cfg gens st h
      rw [hstep] at this
      simpa [StepResult.sols] using this
    · next st' hstep =>
      apply ih
      have := solveStep_sols_good p cfg gens st h
      rw [hstep] at this
      simpa [StepResult.sols] using this

/-- C1: every node in the list returned by `solve` satisfies both
`is_solution` and `is_nontrivial`; nodes failing either predicate are
never appended to the returned solutions. -/
theorem solve_solutions_valid (p : SearchProblem S K) (cfg : FlashBeamConfig) :
    ∀ n ∈ solve p cfg, p.is_solution n = true ∧ p.is_nontrivial n = true := by
  intro n hn
  exact solveLoop_sols_good p cfg p.get_generators cfg.max_iterations
    (initState p) (by simp [initState]) n hn

/-- Witness for C1 on the concrete toy problem: the node the toy search
returns passes both predicates. -/
theorem solve_solutions_valid_witness :
    toyProblem.is_solution toySol = true ∧
      toyProblem.is_nontrivial toySol = true :=
  solve_solutions_valid toyProblem toyCfg toySol (by decide)

theorem expandPairs_sols_length (p : SearchProblem S K) (ms : ℕ) :
    ∀ (pairs : List (Node S × Node S)) (visited : List K)
      (cands sols : List (Node S)), sols.length < ms →
      (∀ out, expandPairs p ms pairs visited cands sols = .done out →
        out.length ≤ ms) ∧
      (∀ v c out, expandPairs p ms pairs visited cands sols = .went v c out →
        out.length < ms) := by
  intro pairs
  induction pairs with
  | nil =>
    intro visited cands sols h
    refine ⟨fun out hout => ?_, fun v c out hout => ?_⟩
    · simp [expandPairs] at hout
    · simp only [expandPairs, ExpandResult.went.injEq] at hout
      exact hout.2.2 ▸ h
  | cons pr rest ih =>
    obtain ⟨b, f⟩ := pr
    intro visited cands sols h
    simp only [expandPairs]
    split
    · exact ih _ _ _ h
    · split
      · split
        · next hlen =>
          refine ⟨fun out hout => ?_, fun v c out hout => ?_⟩
          · simp only [ExpandResult.done.injEq] at hout
            subst hout
            simp only [List.length_append, List.length_singleton]
            omega
          · simp at hout
        · next hlen =>
          apply ih
          simp only [List.length_append, List.length_singleton] at hlen ⊢
          omega
      · exact ih _ _ _ h

theorem solveStep_sols_length (p : SearchProblem S K) (cfg : FlashBeamConfig)
    (gens : List (Node S)) (st : EngineState S K)
    (h : st.found_solutions.length < cfg.max_solutions) :
    (∀ sols, solveStep p cfg gens st = .finished sols →
      sols.length ≤ cfg.max_solutions) ∧
    (∀ st', solveStep p cfg gens st = .running st' →
      st'.found_solutions.length < cfg.max_solutions) := by
  have hE := expandPairs_sols_length p cfg.max_solutions
    (beamPairs st.current_beam (expansionPool p st.persistent_flash gens))
    st.visited [] st.found_solutions h
  simp only [solveStep]
  split
  · next sols hstep =>
    refine ⟨fun s hs => ?_, fun st' hs => ?_⟩
    · simp only [StepResult.finished.injEq] at hs
      exact hs ▸ hE.1 _ hstep
    · simp at hs
  · next v c sols hstep =>
    have hw := hE.2 _ _ _ hstep
    split
    · refine ⟨fun s hs => ?_, fun st' hs => ?_⟩
      · simp only [StepResult.finished.injEq] at hs
        exact hs ▸ le_of_lt hw
      · simp at hs
    · refine ⟨fun s hs => ?_, fun st' hs => ?_⟩
      · simp at hs
      · simp only [StepResult.running.injEq] at hs
        rw [← hs]
        exact hw

theorem solveLoop_sols_length (p : SearchProblem S K) (cfg : FlashBeamConfig)
    (gens : List (Node S)) :
    ∀ (k : ℕ) (st : EngineState S K),
      st.found_solutions.length < cfg.max_solutions →
      (solveLoop p cfg gens k st).length ≤ cfg.max_solutions := by
  intro k
  induction k with
  | zero =>
    intro st h
    simp only [solveLoop]
    omega
  | succ k ih =>
    intro st h
    simp only [solveLoop]
    split
    · next sols hstep => exact (solveStep_sols_length p cfg gens st h).1 _ hstep
    · next st' hstep => exact ih st' ((solveStep_sols_length p cfg gens st h).2 _ hstep)

/-- C2: with `max_solutions ≥ 1`, `solve` returns at most
`max_solutions` nodes, and the expansion loop returns the solution list
the moment the `max_solutions`-th valid non-trivial solution is
appended — the remaining pairs (`rest`) are never examined, so no
further child is expanded, no new frontier is selected and the flash
pool is not refreshed.  With `max_solutions = 1` the result thus has at
most one element, produced as soon as the first valid non-trivial
solution appears. -/
theorem solve_respects_max_solutions (p : SearchProblem S K)
    (cfg : FlashBeamConfig) (h : 1 ≤ cfg.max_solutions) :
    (solve p cfg).length ≤ cfg.max_solutions ∧
    ∀ (b f : Node S) (rest : List (Node S × Node S)) (visited : List K)
      (cands sols : List (Node S)),
      p.get_hash_key (p.combine b f) ∉ visited →
      p.is_solution (p.combine b f) = true →
      p.is_nontrivial (p.combine b f) = true →
      cfg.max_solutions ≤ sols.length + 1 →
      expandPairs p cfg.max_solutions ((b, f) :: rest) visited cands sols
        = .done (sols ++ [p.combine b f]) := by
  constructor
  · exact solveLoop_sols_length p cfg p.get_generators cfg.max_iterations
      (initState p) (by simpa [initState] using h)
  · intro b f rest visited cands sols hnv hsol hnt hms
    simp only [expandPairs, if_neg hnv, hsol, hnt, Bool.and_self,
      if_pos, List.length_append, List.length_singleton]
    rw [if_pos (by simpa using hms)]

/-- Witness for C2: on the toy problem with `max_solutions = 1` the
returned list has at most one element, and the concrete expansion step
that finds the toy solution returns it at once, ignoring the remaining
pairs. -/
theorem solve_respects_max_solutions_witness :
    (solve toyProblem toyCfg).length ≤ 1 ∧
      expandPairs toyProblem 1 [(toyCombine toyGen toyGen, toyGen)]
        [2, 0, 1] [] [] = .done [toySol] :=
  ⟨(solve_respects_max_solutions toyProblem toyCfg (by decide)).1,
   (solve_respects_max_solutions toyProblem toyCfg (by decide)).2
     (toyCombine toyGen toyGen) toyGen [] [2, 0, 1] [] []
     (by decide) (by decide) (by decide) (by decide)⟩

theorem pyInsert_length (x : Node S) :
    ∀ l : List (Node S), (pyInsert x l).length = l.length + 1 := by
  intro l
  induction l with
  | nil => rfl
  | cons y ys ih =>
    simp only [pyInsert]
    split <;> simp [ih]

theorem pysort_length (l : List (Node S)) : (pysort l).length = l.length := by
  induction l with
  | nil => rfl
  | cons x xs ih => simp [pysort, pyInsert_length, ih]

theorem selectBeam_length_le (bw : ℕ) (cands : List (Node S)) :
    (selectBeam bw cands).length ≤ bw := by
  simp only [selectBeam]
  split
  · next hlt => simp
  · next hlt => simp only [pysort_length]; omega

theorem flashLoop_length_le (p : SearchProblem S K) (fs : ℕ) :
    ∀ (l : List (Node S)) (seen : List K) (acc : List (Node S)),
      acc.length < fs → (flashLoop p fs l seen acc).length ≤ fs := by
  intro l
  induction l with
  | nil =>
    intro seen acc h
    simp only [flashLoop]
    omega
  | cons n rest ih =>
    intro seen acc h
    simp only [flashLoop]
    split
    · exact ih _ _ h
    · split
      · exact ih _ _ h
      · split
        · next hfull => simp at hfull ⊢; omega
        · next hfull =>
          apply ih
          simp at hfull ⊢
          omega

theorem refreshFlash_length_le (p : SearchProblem S K) (fs : ℕ) (h : 1 ≤ fs)
    (flash beam : List (Node S)) : (refreshFlash p fs flash beam).length ≤ fs :=
  flashLoop_length_le p fs _ [] [] (by simpa using h)

theorem solveStep_running_bounds (p : SearchProblem S K) (cfg : FlashBeamConfig)
    (hfs : 1 ≤ cfg.flash_size) (gens : List (Node S)) (st st' : EngineState S K)
    (hstep : solveStep p cfg gens st = .running st') :
    st'.current_beam.length ≤ cfg.beam_width ∧
      st'.persistent_flash.length ≤ cfg.flash_size := by
  simp only [solveStep] at hstep
  split at hstep
  · simp at hstep
  · split at hstep
    · simp at hstep
    · simp only [StepResult.running.injEq] at hstep
      rw [← hstep]
      exact ⟨selectBeam_length_le _ _, refreshFlash_length_le p _ hfs _ _⟩

theorem solveStates_bounds (p : SearchProblem S K) (cfg : FlashBeamConfig)
    (hfs : 1 ≤ cfg.flash_size) (gens : List (Node S)) :
    ∀ (k : ℕ) (st : EngineState S K),
      ∀ st' ∈ solveStates p cfg gens k st,
        st'.current_beam.length ≤ cfg.beam_width ∧
          st'.persistent_flash.length ≤ cfg.flash_size := by
  intro k
  induction k with
  | zero => intro st st' h; simp [solveStates] at h
  | succ k ih =>
    intro st st' h
    simp only [solveStates] at h
    split at h
    · simp at h
    · next st1 hstep =>
      rcases List.mem_cons.1 h with rfl | htail
      · exact solveStep_running_bounds p cfg hfs gens st st' hstep
      · exact ih st1 st' htail

/-- C3 (amended): provided `flash_size ≥ 1`, after every completed
iteration of the main loop the frontier has at most `beam_width` nodes
and the flash pool has at most `flash_size` nodes.  (For
`flash_size = 0` the refresh loop's post-append break leaves one node
in the pool, see the counterexample.) -/
theorem solve_frontier_flash_bounds (p : SearchProblem S K)
    (cfg : FlashBeamConfig) (hfs : 1 ≤ cfg.flash_size) :
    ∀ st ∈ solveTrace p cfg,
      st.current_beam.length ≤ cfg.beam_width ∧
        st.persistent_flash.length ≤ cfg.flash_size := by
  intro st hst
  exact solveStates_bounds p cfg hfs p.get_generators cfg.max_iterations
    (initState p) st hst

/-- Counterexample to C3 as stated: with `flash_size = 0` the flash
pool holds one node after the first completed iteration of the toy
search, exceeding the claimed `flash_size` bound. -/
theorem solve_frontier_flash_bounds_counterexample :
    toyCfgZeroFlash.flash_size = 0 ∧
      ((solveTrace toyProblem toyCfgZeroFlash).head?.map
        (fun st => st.persistent_flash.length)) = some 1 := by decide

/-- Witness for the amended C3 on the toy run: the single completed
iteration respects both bounds. -/
theorem solve_frontier_flash_bounds_witness :
    ({ current_beam := [toyCombine toyGen toyGen],
       visited := [2, 0, 1],
       persistent_flash := [toyCombine toyGen toyGen, toyGen],
       found_solutions := [] } : EngineState ℤ ℤ).current_beam.length ≤
        toyCfg.beam_width ∧
      ({ current_beam := [toyCombine toyGen toyGen],
         visited := [2, 0, 1],
         persistent_flash := [toyCombine toyGen toyGen, toyGen],
         found_solutions := [] } : EngineState ℤ ℤ).persistent_flash.length ≤
        toyCfg.flash_size :=
  solve_frontier_flash_bounds toyProblem toyCfg (by decide) _ (by decide)

theorem expandPairs_keys (p : SearchProblem S K) (ms : ℕ) :
    ∀ (pairs : List (Node S × Node S)) (visited : List K)
      (cands sols : List (Node S)), solsKeysInv p visited sols →
      (∀ out, expandPairs p ms pairs visited cands sols = .done out →
        out.Pairwise (fun a b => p.get_hash_key a ≠ p.get_hash_key b)) ∧
      (∀ v c out, expandPairs p ms pairs visited cands sols = .went v c out →
        solsKeysInv p v out) := by
  intro pairs
  induction pairs with
  | nil =>
    intro visited cands sols h
    refine ⟨fun out hout => ?_, fun v c out hout => ?_⟩
    · simp [expandPairs] at hout
    · simp only [expandPairs, ExpandResult.went.injEq] at hout
      obtain ⟨rfl, -, rfl⟩ := hout
      exact h
  | cons pr rest ih =>
    obtain ⟨b, f⟩ := pr
    intro visited cands sols h
    have hmemmono : ∀ s ∈ sols,
        p.get_hash_key s ∈ p.get_hash_key (p.combine b f) :: visited :=
      fun s hs => List.mem_cons_of_mem _ (h.1 s hs)
    simp only [expandPairs]
    split
    · exact ih _ _ _ h
    · next hnv =>
      have hext : (sols ++ [p.combine b f]).Pairwise
          (fun a b' => p.get_hash_key a ≠ p.get_hash_key b') := by
        refine List.pairwise_append.2 ⟨h.2, List.pairwise_singleton _ _, ?_⟩
        intro a ha b' hb'
        rcases List.mem_singleton.1 hb' with rfl
        intro hkey
        exact hnv (hkey ▸ h.1 a ha)
      have hinv' : solsKeysInv p (p.get_hash_key (p.combine b f) :: visited)
          (sols ++ [p.combine b f]) := by
        refine ⟨?_, hext⟩
        intro s hs
        rcases List.mem_append.1 hs with h1 | h2
        · exact hmemmono s h1
        · rcases List.mem_singleton.1 h2 with rfl
          exact List.mem_cons_self _ _
      split
      · split
        · refine ⟨fun out hout => ?_, fun v c out hout => ?_⟩
          · simp only [ExpandResult.done.injEq] at hout
            exact hout ▸ hext
          · simp at hout
        · exact ih _ _ _ hinv'
      · exact ih _ _ _ ⟨hmemmono, h.2⟩

theorem solveStep_keys (p : SearchProblem S K) (cfg : FlashBeamConfig)
    (gens : List (Node S)) (st : EngineState S K)
    (h : solsKeysInv p st.visited st.found_solutions) :
    (∀ sols, solveStep p cfg gens st = .finished sols →
      sols.Pairwise (fun a b => p.get_hash_key a ≠ p.get_hash_key b)) ∧
    (∀ st', solveStep p cfg gens st = .running st' →
      solsKeysInv p st'.visited st'.found_solutions) := by
  have hE := expandPairs_keys p cfg.max_solutions
    (beamPairs st.current_beam (expansionPool p st.persistent_flash gens))
    st.visited [] st.found_solutions h
  simp only [solveStep]
  split
  · next sols hstep =>
    refine ⟨fun s hs => ?_, fun st' hs => ?_⟩
    · simp only [StepResult.finished.injEq] at hs
      exact hs ▸ hE.1 _ hstep
    · simp at hs
  · next v c sols hstep =>
    have hw := hE.2 _ _ _ hstep
    split
    · refine ⟨fun s hs => ?_, fun st' hs => ?_⟩
      · simp only [StepResult.finished.injEq] at hs
        exact hs ▸ hw.2
      · simp at hs
    · refine ⟨fun s hs => ?_, fun st' hs => ?_⟩
      · simp at hs
      · simp only [StepResult.running.injEq] at hs
        rw [← hs]
        exact hw

theorem solveLoop_keys (p : SearchProblem S K) (cfg : FlashBeamConfig)
    (gens : List (Node S)) :
    ∀ (k : ℕ) (st : EngineState S K),
      solsKeysInv p st.visited st.found_solutions →
      (solveLoop p cfg gens k st).Pairwise
        (fun a b => p.get_hash_key a ≠ p.get_hash_key b) := by
  intro k
  induction k with
  | zero =>
    intro st h
    simpa [solveLoop] using h.2
  | succ k ih =>
    intro st h
    simp only [solveLoop]
    split
    · next sols hstep => exact (solveStep_keys p cfg gens st h).1 _ hstep
    · next st' hstep => exact ih st' ((solveStep_keys p cfg gens st h).2 _ hstep)

/-- C4: no two nodes of the returned solution list share a canonical
key (`get_hash_key` value). -/
theorem solve_no_duplicate_keys (p : SearchProblem S K)
    (cfg : FlashBeamConfig) :
    (solve p cfg).Pairwise
      (fun a b => p.get_hash_key a ≠ p.get_hash_key b) :=
  solveLoop_keys p cfg p.get_generators cfg.max_iterations (initState p)
    (by simp [solsKeysInv, initState])

theorem expandPairs_seeds (p : SearchProblem S K) (ms : ℕ) :
    ∀ (pairs : List (Node S × Node S)) (visited : List K)
      (cands sols : List (Node S)), seedsInv p visited sols →
      (∀ out, expandPairs p ms pairs visited cands sols = .done out →
        ∀ s ∈ out, p.get_hash_key s ∉ seedKeys p) ∧
      (∀ v c out, expandPairs p ms pairs visited cands sols = .went v c out →
        seedsInv p v out) := by
  intro pairs
  induction pairs with
  | nil =>
    intro visited cands sols h
    refine ⟨fun out hout => ?_, fun v c out hout => ?_⟩
    · simp [expandPairs] at hout
    · simp only [expandPairs, ExpandResult.went.injEq] at hout
      obtain ⟨rfl, -, rfl⟩ := hout
      exact h
  | cons pr rest ih =>
    obtain ⟨b, f⟩ := pr
    intro visited cands sols h
    have hseedmono : ∀ kk ∈ seedKeys p,
        kk ∈ p.get_hash_key (p.combine b f) :: visited :=
      fun kk hk => List.mem_cons_of_mem _ (h.1 kk hk)
    simp only [expandPairs]
    split
    · exact ih _ _ _ h
    · next hnv =>
      have hchild : p.get_hash_key (p.combine b f) ∉ seedKeys p :=
        fun hmem => hnv (h.1 _ hmem)
      have hsols' : ∀ s ∈ sols ++ [p.combine b f],
          p.get_hash_key s ∉ seedKeys p := by
        intro s hs
        rcases List.mem_append.1 hs with h1 | h2
        · exact h.2 s h1
        · rcases List.mem_singleton.1 h2 with rfl
          exact hchild
      split
      · split
        · refine ⟨fun out hout => ?_, fun v c out hout => ?_⟩
          · simp only [ExpandResult.done.injEq] at hout
            exact hout ▸ hsols'
          · simp at hout
        · exact ih _ _ _ ⟨hseedmono, hsols'⟩
      · exact ih _ _ _ ⟨hseedmono, h.2⟩

theorem solveStep_seeds (p : SearchProblem S K) (cfg : FlashBeamConfig)
    (gens : List (Node S)) (st : EngineState S K)
    (h : seedsInv p st.visited st.found_solutions) :
    (∀ sols, solveStep p cfg gens st = .finished sols →
      ∀ s ∈ sols, p.get_hash_key s ∉ seedKeys p) ∧
    (∀ st', solveStep p cfg gens st = .running st' →
      seedsInv p st'.visited st'.found_solutions) := by
  have hE := expandPairs_seeds p cfg.max_solutions
    (beamPairs st.current_beam (expansionPool p st.persistent_flash gens))
    st.visited [] st.found_solutions h
  simp only [solveStep]
  split
  · next sols hstep =>
    refine ⟨fun s hs => ?_, fun st' hs => ?_⟩
    · simp only [StepResult.finished.injEq] at hs
      exact hs ▸ hE.1 _ hstep
    · simp at hs
  · next v c sols hstep =>
    have hw := hE.2 _ _ _ hstep
    split
    · refine ⟨fun s hs => ?_, fun st' hs => ?_⟩
      · simp only [StepResult.finished.injEq] at hs
        exact hs ▸ hw.2
      · simp at hs
    · refine ⟨fun s hs => ?_, fun st' hs => ?_⟩
      · simp at hs
      · simp only [StepResult.running.injEq] at hs
        rw [← hs]
        exact hw

theorem solveLoop_seeds (p : SearchProblem S K) (cfg : FlashBeamConfig)
    (gens : List (Node S)) :
    ∀ (k : ℕ) (st : EngineState S K),
      seedsInv p st.visited st.found_solutions →
      ∀ s ∈ solveLoop p cfg gens k st, p.get_hash_key s ∉ seedKeys p := by
  intro k
  induction k with
  | zero =>
    intro st h
    simpa [solveLoop] using h.2
  | succ k ih =>
    intro st h
    simp only [solveLoop]
    split
    · next sols hstep => exact (solveStep_seeds p cfg gens st h).1 _ hstep
    · next st' hstep => exact ih st' ((solveStep_seeds p cfg gens st h).2 _ hstep)

/-- C10: a child whose canonical key is already visited is skipped
before the solution check (second conjunct), and since the visited set
is pre-seeded with the keys of the root and of every generator, no
returned solution ever carries the root's key or a generator's key
(first conjunct). -/
theorem solve_never_reports_seed_keys (p : SearchProblem S K)
    (cfg : FlashBeamConfig) :
    (∀ n ∈ solve p cfg,
      p.get_hash_key n ≠ p.get_hash_key p.get_initial_node ∧
        ∀ g ∈ p.get_generators, p.get_hash_key n ≠ p.get_hash_key g) ∧
    (∀ (ms : ℕ) (b f : Node S) (rest : List (Node S × Node S))
        (visited : List K) (cands sols : List (Node S)),
      p.get_hash_key (p.combine b f) ∈ visited →
      expandPairs p ms ((b, f) :: rest) visited cands sols =
        expandPairs p ms rest visited cands sols) := by
  constructor
  · intro n hn
    have hmem : p.get_hash_key n ∉ seedKeys p := by
      refine solveLoop_seeds p cfg p.get_generators cfg.max_iterations
        (initState p) ⟨?_, by simp [initState]⟩ n hn
      intro kk hk
      simpa [initState] using (by simpa [seedKeys] using hk :
        kk = p.get_hash_key p.get_initial_node ∨
          ∃ a ∈ p.get_generators, p.get_hash_key a = kk)
    constructor
    · intro hkey
      exact hmem (hkey ▸ List.mem_cons_self _ _)
    · intro g hg hkey
      exact hmem (by
        simp only [seedKeys, List.mem_cons]
        exact Or.inr (hkey ▸ List.mem_map_of_mem p.get_hash_key hg))
  · intro ms b f rest visited cands sols hv
    simp [expandPairs, if_pos hv]

/-- Witness for C10: the toy solution's key differs from the root's and
the generator's keys, and a concrete already-visited child is skipped. -/
theorem solve_never_reports_seed_keys_witness :
    (toyProblem.get_hash_key toySol ≠
        toyProblem.get_hash_key toyProblem.get_initial_node ∧
      ∀ g ∈ toyProblem.get_generators,
        toyProblem.get_hash_key toySol ≠ toyProblem.get_hash_key g) ∧
    expandPairs toyProblem 1 [(toyRoot, toyGen)] [1, 0] [] [] =
      expandPairs toyProblem 1 [] [1, 0] [] [] :=
  ⟨(solve_never_reports_seed_keys toyProblem toyCfg).1 toySol (by decide),
   (solve_never_reports_seed_keys toyProblem toyCfg).2 1 toyRoot toyGen []
     [1, 0] [] [] (by decide)⟩

/-- C8: a fresh child that satisfies `is_solution` but fails
`is_nontrivial` is not appended to the solution list and triggers no
early return, yet it is appended to the iteration's candidate list (so
it stays eligible for the next frontier and further expansion) and the
expansion continues with the remaining pairs. -/
theorem trivial_solution_kept_as_candidate (p : SearchProblem S K) (ms : ℕ)
    (b f : Node S) (rest : List (Node S × Node S)) (visited : List K)
    (cands sols : List (Node S))
    (hnv : p.get_hash_key (p.combine b f) ∉ visited)
    (hsol : p.is_solution (p.combine b f) = true)
    (hnt : p.is_nontrivial (p.combine b f) = false) :
    expandPairs p ms ((b, f) :: rest) visited cands sols =
      expandPairs p ms rest (p.get_hash_key (p.combine b f) :: visited)
        (cands ++ [p.combine b f]) sols := by
  simp [expandPairs, if_neg hnv, hsol, hnt]

/-- Witness for C8: in the toy problem whose state `2` is a trivial
solution, the child `a . a` is skipped as a solution but kept as a
candidate, and expansion goes on. -/
theorem trivial_solution_kept_as_candidate_witness :
    expandPairs toyTrivialProblem 1 [(toyGen, toyGen)] [0, 1] [] [] =
      expandPairs toyTrivialProblem 1 []
        (toyTrivialProblem.get_hash_key (toyTrivialProblem.combine toyGen toyGen)
          :: [0, 1])
        ([] ++ [toyTrivialProblem.combine toyGen toyGen]) [] :=
  trivial_solution_kept_as_candidate toyTrivialProblem 1 toyGen toyGen []
    [0, 1] [] [] (by decide) (by decide) (by decide)

/-- C5 (amended): `solve` performs no contract validation.  With an
empty generator list it does not raise: the first iteration produces an
empty expansion pool and an empty candidate list, and `solve` returns
the normal empty solution list. -/
theorem solve_empty_generators_returns_empty (p : SearchProblem S K)
    (cfg : FlashBeamConfig) (h : p.get_generators = []) :
    solve p cfg = [] := by
  unfold solve
  rw [h]
  cases hk : cfg.max_iterations with
  | zero => simp [solveLoop, initState, h]
  | succ k =>
    simp [solveLoop, solveStep, initState, h, expansionPool, dedupGo,
      beamPairs, expandPairs, StepResult.sols]

/-- Witness for the amended C5: the concrete empty-generator problem
returns the empty list under a second configuration. -/
theorem solve_empty_generators_returns_empty_witness :
    solve emptyGenProblem toyCfgZeroFlash = [] :=
  solve_empty_generators_returns_empty emptyGenProblem toyCfgZeroFlash rfl

/-- Counterexample to C5 as stated: the engine does not fail fast on
contract violations.  With empty generators `solve` runs and returns
the normal empty result, and with a `nan`-scored generator it runs the
whole search and returns an ordinary solution — no error is raised at
the start of `solve` in either case. -/
theorem solve_contract_violation_counterexample :
    solve emptyGenProblem toyCfg = [] ∧
      solve nanGenProblem toyCfg = [toySol] := by decide

theorem flashLoop_eq_take (p : SearchProblem S K) (fs : ℕ) :
    ∀ (l : List (Node S)) (seen : List K) (acc : List (Node S)),
      acc.length < fs →
      flashLoop p fs l seen acc =
        acc ++ (dedupGo p
          (l.filter (fun n => !PyFloat.lt n.score flashZeroThreshold)) seen).take
          (fs - acc.length) := by
  intro l
  induction l with
  | nil =>
    intro seen acc h
    simp [flashLoop, dedupGo]
  | cons n rest ih =>
    intro seen acc h
    cases hlt : PyFloat.lt n.score flashZeroThreshold with
    | true =>
      simp only [flashLoop, hlt, if_true]
      rw [ih _ _ h]
      simp [List.filter_cons, hlt]
    | false =>
      simp only [flashLoop, hlt, Bool.false_eq_true, if_false]
      split
      · next hseen =>
        rw [ih _ _ h]
        simp [List.filter_cons, hlt, dedupGo, hseen]
      · next hseen =>
        split
        · next hfull =>
          have hsub : fs - acc.length = 1 := by
            simp only [List.length_append, List.length_singleton] at hfull
            omega
          simp [List.filter_cons, hlt, dedupGo, hseen, hsub]
        · next hfull =>
          rw [ih _ _ (by
            simp only [List.length_append, List.length_singleton] at hfull ⊢
            omega)]
          have hsub : fs - acc.length = (fs - (acc ++ [n]).length) + 1 := by
            simp only [List.length_append, List.length_singleton] at hfull ⊢
            omega
          rw [hsub]
          simp [List.filter_cons, hlt, dedupGo, hseen, List.take_succ_cons]

theorem dedupGo_subset (p : SearchProblem S K) :
    ∀ (l : List (Node S)) (seen : List K) (n : Node S),
      n ∈ dedupGo p l seen → n ∈ l := by
  intro l
  induction l with
  | nil =>
    intro seen n h
    simp [dedupGo] at h
  | cons m rest ih =>
    intro seen n h
    simp only [dedupGo] at h
    split at h
    · exact List.mem_cons_of_mem _ (ih _ _ h)
    · rcases List.mem_cons.1 h with rfl | htail
      · exact List.mem_cons_self _ _
      · exact List.mem_cons_of_mem _ (ih _ _ htail)

theorem refreshFlash_eq_spec (p : SearchProblem S K) (fs : ℕ) (hfs : 1 ≤ fs)
    (flash beam : List (Node S)) :
    refreshFlash p fs flash beam = specFlashPipeline p fs flash beam := by
  unfold refreshFlash specFlashPipeline
  rw [flashLoop_eq_take p fs _ [] [] (by simpa using hfs)]
  simp

theorem refreshFlash_scores (p : SearchProblem S K) (fs : ℕ) (hfs : 1 ≤ fs)
    (flash beam : List (Node S)) :
    ∀ n ∈ refreshFlash p fs flash beam,
      PyFloat.lt n.score flashZeroThreshold = false := by
  intro n hn
  rw [refreshFlash_eq_spec p fs hfs flash beam] at hn
  unfold specFlashPipeline at hn
  have hmem := dedupGo_subset p _ _ n (List.mem_of_mem_take hn)
  have := List.of_mem_filter hmem
  simpa using this

/-- C6 (amended): provided `flash_size ≥ 1`, the flash pool at the end
of each completed iteration equals the spec pipeline applied to
(previous flash pool ++ new frontier): stable-sort by score ascending,
discard the nodes with score `< 1e-10`, keep the first occurrence of
each canonical key (the best-scoring representative), truncate to
`flash_size`; consequently every retained node has a score that is not
below the threshold (`score < 1e-10` evaluates false — for a `nan`
score, which also fails `score ≥ 1e-10`, the node is nevertheless
retained, see the counterexample). -/
theorem flash_pool_refresh_pipeline (p : SearchProblem S K)
    (cfg : FlashBeamConfig) (hfs : 1 ≤ cfg.flash_size) (gens : List (Node S))
    (st st' : EngineState S K)
    (hstep : solveStep p cfg gens st = .running st') :
    st'.persistent_flash =
      specFlashPipeline p cfg.flash_size st.persistent_flash
        st'.current_beam ∧
    ∀ n ∈ st'.persistent_flash,
      PyFloat.lt n.score flashZeroThreshold = false := by
  simp only [solveStep] at hstep
  split at hstep
  · simp at hstep
  · split at hstep
    · simp at hstep
    · simp only [StepResult.running.injEq] at hstep
      rw [← hstep]
      exact ⟨refreshFlash_eq_spec p _ hfs _ _, refreshFlash_scores p _ hfs _ _⟩

/-- Witness for the amended C6: the first completed iteration of the
toy search refreshes the flash pool exactly as the spec pipeline
prescribes, and every retained score clears the threshold. -/
theorem flash_pool_refresh_pipeline_witness :
    toyIterOneState.persistent_flash =
      specFlashPipeline toyProblem toyCfg.flash_size
        (initState toyProblem).persistent_flash
        toyIterOneState.current_beam ∧
    ∀ n ∈ toyIterOneState.persistent_flash,
      PyFloat.lt n.score flashZeroThreshold = false :=
  flash_pool_refresh_pipeline toyProblem toyCfg (by decide) [toyGen]
    (initState toyProblem) toyIterOneState (by decide)

/-- Counterexample to C6 as stated: with `flash_size = 0` the refresh
loop deviates from the pipeline (it keeps one node where the pipeline
truncates to none), and a retained `nan`-scored node does not satisfy
`score ≥ 1e-10` (Python comparison), refuting the claim's consequence. -/
theorem flash_pool_refresh_pipeline_counterexample :
    refreshFlash toyProblem 0 [] [goodNode] ≠
      specFlashPipeline toyProblem 0 [] [goodNode] ∧
    (nanNode ∈ refreshFlash toyProblem 5 [nanNode] [goodNode] ∧
      PyFloat.ge nanNode.score flashZeroThreshold = false) := by decide

theorem PyFloat.lt_asymm (a b : PyFloat) (h : PyFloat.lt a b = true) :
    PyFloat.lt b a = false := by
  cases a <;> cases b <;> simp [PyFloat.lt] at h ⊢
  linarith

theorem PyFloat.lt_false_trans (a b c : PyFloat) (ha : a ≠ .nan)
    (hb : b ≠ .nan) (hc : c ≠ .nan) (h1 : PyFloat.lt b a = false)
    (h2 : PyFloat.lt c b = false) : PyFloat.lt c a = false := by
  cases a <;> cases b <;> cases c <;>
    simp [PyFloat.lt] at h1 h2 ⊢ <;> first
    | rfl
    | exact absurd rfl ha
    | exact absurd rfl hb
    | exact absurd rfl hc
    | linarith

theorem pyInsert_mem (x : Node S) :
    ∀ (l : List (Node S)) (z : Node S), z ∈ pyInsert x l ↔ z = x ∨ z ∈ l := by
  intro l
  induction l with
  | nil => intro z; simp [pyInsert]
  | cons y ys ih =>
    intro z
    simp only [pyInsert]
    split
    · simp only [List.mem_cons, ih]
      tauto
    · simp only [List.mem_cons]

theorem pysort_mem (l : List (Node S)) (z : Node S) :
    z ∈ pysort l ↔ z ∈ l := by
  induction l with
  | nil => simp [pysort]
  | cons x xs ih =>
    simp only [pysort, pyInsert_mem, ih, List.mem_cons]

theorem pyInsert_pairwise (x : Node S) (hx : x.score ≠ .nan) :
    ∀ l : List (Node S), (∀ n ∈ l, n.score ≠ .nan) →
      l.Pairwise (fun a b => PyFloat.lt b.score a.score = false) →
      (pyInsert x l).Pairwise (fun a b => PyFloat.lt b.score a.score = false) := by
  intro l
  induction l with
  | nil =>
    intro hnn hp
    simp [pyInsert]
  | cons y ys ih =>
    intro hnn hp
    simp only [pyInsert]
    split
    · next hlt =>
      rw [List.pairwise_cons] at hp ⊢
      refine ⟨?_, ih (fun n hn => hnn n (List.mem_cons_of_mem _ hn)) hp.2⟩
      intro z hz
      rcases (pyInsert_mem x ys z).1 hz with rfl | hzys
      · exact PyFloat.lt_asymm _ _ hlt
      · exact hp.1 z hzys
    · next hlt =>
      rw [List.pairwise_cons] at hp
      rw [List.pairwise_cons]
      refine ⟨?_, List.pairwise_cons.2 hp⟩
      intro z hz
      rcases List.mem_cons.1 hz with rfl | hzys
      · simpa using hlt
      · exact PyFloat.lt_false_trans x.score y.score z.score hx
          (hnn y (List.mem_cons_self _ _))
          (hnn z (List.mem_cons_of_mem _ hzys))
          (by simpa using hlt) (hp.1 z hzys)

theorem pysort_pairwise (l : List (Node S)) (hnn : ∀ n ∈ l, n.score ≠ .nan) :
    (pysort l).Pairwise (fun a b => PyFloat.lt b.score a.score = false) := by
  induction l with
  | nil => simp [pysort]
  | cons x xs ih =>
    simp only [pysort]
    exact pyInsert_pairwise x (hnn x (List.mem_cons_self _ _)) (pysort xs)
      (fun n hn => hnn n (List.mem_cons_of_mem _ ((pysort_mem xs n).1 hn)))
      (ih (fun n hn => hnn n (List.mem_cons_of_mem _ hn)))

/-- C9 (amended): in the score-ordered selections of the engine (the
candidate sort / `nsmallest` truncation, and hence also the flash-pool
history sort, which uses the same `pysort`), a node with `+∞` score
sorts after every node with a comparable score — provided no score is
`nan`.  A `nan` score is incomparable (all Python comparisons return
`False`), stays wherever the stable sort finds it, and can even be
selected ahead of finite scores, see the counterexample. -/
theorem inf_scores_sort_last (l : List (Node S)) (bw : ℕ)
    (hnn : ∀ n ∈ l, n.score ≠ .nan) :
    ((pysort l).Pairwise
      (fun a b => a.score = PyFloat.inf → b.score = PyFloat.inf)) ∧
    ((selectBeam bw l).Pairwise
      (fun a b => a.score = PyFloat.inf → b.score = PyFloat.inf)) := by
  have hsorted := pysort_pairwise l hnn
  have hinf : (pysort l).Pairwise
      (fun a b => a.score = PyFloat.inf → b.score = PyFloat.inf) := by
    refine hsorted.imp_of_mem ?_
    intro a b ha hb hr hainf
    have hbnn : b.score ≠ .nan := hnn b ((pysort_mem l b).1 hb)
    rw [hainf] at hr
    cases hsc : b.score with
    | nan => exact absurd hsc hbnn
    | ninf => rw [hsc] at hr; simp [PyFloat.lt] at hr
    | finite q => rw [hsc] at hr; simp [PyFloat.lt] at hr
    | inf => rfl
  refine ⟨hinf, ?_⟩
  simp only [selectBeam]
  split
  · exact hinf.sublist (List.take_sublist _ _)
  · exact hinf

/-- Witness for the amended C9 on a concrete `nan`-free list containing
an infinite score. -/
theorem inf_scores_sort_last_witness :
    ((pysort [infNode, goodNode]).Pairwise
      (fun a b => a.score = PyFloat.inf → b.score = PyFloat.inf)) ∧
    ((selectBeam 1 [infNode, goodNode]).Pairwise
      (fun a b => a.score = PyFloat.inf → b.score = PyFloat.inf)) :=
  inf_scores_sort_last [infNode, goodNode] 1 (by decide)

/-- Counterexample to C9 as stated: a `nan`-scored node does not sort
last — the stable sort leaves it in front of a finite-scored node, and
the beam truncation then selects the `nan` node while dropping the
finite one. -/
theorem nan_scores_sort_last_counterexample :
    pysort [nanNode, goodNode] = [nanNode, goodNode] ∧
      selectBeam 1 [nanNode, goodNode] = [nanNode] ∧
      nanNode.score = PyFloat.nan ∧ goodNode.score = PyFloat.finite 1 := by
  decide

theorem dedupGo_congr (p q : SearchProblem S K)
    (hk : p.get_hash_key = q.get_hash_key) :
    ∀ (l : List (Node S)) (seen : List K),
      dedupGo p l seen = dedupGo q l seen := by
  intro l
  induction l with
  | nil => intro seen; rfl
  | cons n rest ih => intro seen; simp only [dedupGo, hk, ih]

theorem expandPairs_congr (p q : SearchProblem S K)
    (hc : p.combine = q.combine) (hk : p.get_hash_key = q.get_hash_key)
    (hs : p.is_solution = q.is_solution)
    (ht : p.is_nontrivial = q.is_nontrivial) (ms : ℕ) :
    ∀ (pairs : List (Node S × Node S)) (visited : List K)
      (cands sols : List (Node S)),
      expandPairs p ms pairs visited cands sols =
        expandPairs q ms pairs visited cands sols := by
  intro pairs
  induction pairs with
  | nil => intro visited cands sols; rfl
  | cons pr rest ih =>
    obtain ⟨b, f⟩ := pr
    intro visited cands sols
    simp only [expandPairs, hc, hk, hs, ht, ih]

theorem flashLoop_congr (p q : SearchProblem S K)
    (hk : p.get_hash_key = q.get_hash_key) (fs : ℕ) :
    ∀ (l : List (Node S)) (seen : List K) (acc : List (Node S)),
      flashLoop p fs l seen acc = flashLoop q fs l seen acc := by
  intro l
  induction l with
  | nil => intro seen acc; rfl
  | cons n rest ih => intro seen acc; simp only [flashLoop, hk, ih]

theorem solveStep_congr (p q : SearchProblem S K)
    (hc : p.combine = q.combine) (hk : p.get_hash_key = q.get_hash_key)
    (hs : p.is_solution = q.is_solution)
    (ht : p.is_nontrivial = q.is_nontrivial) (cfg : FlashBeamConfig)
    (gens : List (Node S)) (st : EngineState S K) :
    solveStep p cfg gens st = solveStep q cfg gens st := by
  simp only [solveStep, expansionPool, refreshFlash,
    dedupGo_congr p q hk, expandPairs_congr p q hc hk hs ht,
    flashLoop_congr p q hk]

theorem solveLoop_congr (p q : SearchProblem S K)
    (hc : p.combine = q.combine) (hk : p.get_hash_key = q.get_hash_key)
    (hs : p.is_solution = q.is_solution)
    (ht : p.is_nontrivial = q.is_nontrivial) (cfg : FlashBeamConfig)
    (gens : List (Node S)) :
    ∀ (k : ℕ) (st : EngineState S K),
      solveLoop p cfg gens k st = solveLoop q cfg gens k st := by
  intro k
  induction k with
  | zero => intro st; rfl
  | succ k ih =>
    intro st
    simp only [solveLoop, solveStep_congr p q hc hk hs ht cfg gens st]
    cases solveStep q cfg gens st with
    | finished sols => rfl
    | running st1 => exact ih st1

theorem solveStates_congr (p q : SearchProblem S K)
    (hc : p.combine = q.combine) (hk : p.get_hash_key = q.get_hash_key)
    (hs : p.is_solution = q.is_solution)
    (ht : p.is_nontrivial = q.is_nontrivial) (cfg : FlashBeamConfig)
    (gens : List (Node S)) :
    ∀ (k : ℕ) (st : EngineState S K),
      solveStates p cfg gens k st = solveStates q cfg gens k st := by
  intro k
  induction k with
  | zero => intro st; rfl
  | succ k ih =>
    intro st
    simp only [solveStates, solveStep_congr p q hc hk hs ht cfg gens st]
    cases solveStep q cfg gens st with
    | finished sols => rfl
    | running st1 => exact congrArg (List.cons st1) (ih st1)

omit [DecidableEq K] in
theorem initState_congr (p q : SearchProblem S K)
    (hi : p.get_initial_node = q.get_initial_node)
    (hg : p.get_generators = q.get_generators)
    (hk : p.get_hash_key = q.get_hash_key) :
    initState p = initState q := by
  simp only [initState, hi, hg, hk]

/-- C7: determinism.  The search is a pure function of the problem's
semantic operations and the four numeric parameters: two `solve()`
calls on problems with identical `get_initial_node`, `get_generators`,
`combine`, `get_hash_key`, `is_solution` and `is_nontrivial` (the
cosmetic `format_score` may differ — logging cannot influence the
search) produce identical engine states (frontier, visited set, flash
pool, solutions) after every iteration and identical solution lists in
the same order. -/
theorem solve_deterministic (p q : SearchProblem S K) (cfg : FlashBeamConfig)
    (hi : p.get_initial_node = q.get_initial_node)
    (hg : p.get_generators = q.get_generators)
    (hc : p.combine = q.combine) (hk : p.get_hash_key = q.get_hash_key)
    (hs : p.is_solution = q.is_solution)
    (ht : p.is_nontrivial = q.is_nontrivial) :
    solveTrace p cfg = solveTrace q cfg ∧ solve p cfg = solve q cfg := by
  constructor
  · rw [solveTrace, solveTrace, hg, initState_congr p q hi hg hk,
      solveStates_congr p q hc hk hs ht cfg q.get_generators]
  · rw [solve, solve, hg, initState_congr p q hi hg hk,
      solveLoop_congr p q hc hk hs ht cfg q.get_generators]

/-- Witness for C7: the toy problem and its copy with a different score
formatter yield identical traces and solutions. -/
theorem solve_deterministic_witness :
    solveTrace toyProblem toyCfg = solveTrace toyProblemLog toyCfg ∧
      solve toyProblem toyCfg = solve toyProblemLog toyCfg :=
  solve_deterministic toyProblem toyProblemLog toyCfg rfl rfl rfl rfl rfl rfl

end Proofs
